/-
Verification of the deployment-orchestration scripts (deploy.py, utils.py,
forge_api.py, schema.py) against their natural-language specification.

Python functions are shallowly embedded as Lean definitions:
  * Python `dict` values are modelled as insertion-ordered association lists
    (`List (String × String)` resp. `List (String × Yaml)`), with the Python
    update semantics (overwriting a key keeps its original position).
  * Raising an exception is modelled by returning `Except String α`.
  * `str.strip` / `str.upper` / `str.split` are modelled by `pyStrip` /
    `pyUpper` / `pySplitChar` (ASCII-level model of the text operations).
  * The HTTP layer is modelled by passing the remote data (daemon lists,
    certificate lists, response status codes) as explicit arguments, and by
    returning the list of mutating calls the code would issue.
-/
import Mathlib

namespace ForgeDeploy

/-! ### Python text primitives -/

/-- Python's whitespace set for `str.strip` and the regex class `\s`
(space, tab, newline, carriage return, vertical tab, form feed). -/
def pyIsSpace (c : Char) : Bool :=
  c = ' ' || c = '\t' || c = '\n' || c = '\r' || c = '\x0b' || c = '\x0c'

/-- Python `str.strip()`: remove leading and trailing whitespace. -/
def pyStrip (s : String) : String :=
  String.mk (((s.toList.dropWhile pyIsSpace).reverse.dropWhile pyIsSpace).reverse)

/-- Python `str.upper()` (ASCII model). -/
def pyUpper (s : String) : String :=
  String.mk (s.toList.map Char.toUpper)

/-- Python `s.startswith(pre)` (character-list model). -/
def pyStartsWith (s pre : String) : Bool :=
  s.toList.take pre.toList.length = pre.toList

/-- Helper for `pySplitChar`: walk the characters, cutting at the
separator; `acc` holds the current piece reversed. -/
def pySplitCharAux (sep : Char) : List Char → List Char → List String
  | [], acc => [String.mk acc.reverse]
  | c :: cs, acc =>
    if c = sep then String.mk acc.reverse :: pySplitCharAux sep cs []
    else pySplitCharAux sep cs (c :: acc)

/-- Python `s.split(sep)` for a one-character separator (the source only
ever splits on `"\n"`, `"="` and `","`). -/
def pySplitChar (sep : Char) (s : String) : List String :=
  pySplitCharAux sep s.toList []

/-- The regex word-character class `\w` (ASCII model): letters, digits, `_`. -/
def pyIsWord (c : Char) : Bool :=
  c.isAlphanum || c = '_'

/-! ### Python dict model -/

/-- Python `d[k] = v` on an insertion-ordered dict: if `k` is already
present, overwrite its value in place (keeping its position), otherwise
append the new binding at the end. -/
def dictInsert (d : List (String × String)) (k v : String) : List (String × String) :=
  if d.any (fun p => p.1 = k) then
    d.map (fun p => if p.1 = k then (k, v) else p)
  else
    d ++ [(k, v)]

/-- Python `d[k]`-lookup (`k in d` / `d.get(k)`). -/
def dictGet (d : List (String × String)) (k : String) : Option String :=
  (d.find? (fun p => p.1 = k)).map (fun p => p.2)

/-- Python `d.update(d2)`: insert every binding of `d2` into `d` in order. -/
def dictUpdate (d d2 : List (String × String)) : List (String × String) :=
  d2.foldl (fun acc p => dictInsert acc p.1 p.2) d

/-- The value the dict `update` semantics retains for key `k` out of a
binding list `l`: the value of the last binding of `k` in `l`. -/
def dictLastGet (l : List (String × String)) (k : String) : Option String :=
  (l.reverse.find? (fun p => p.1 = k)).map (fun p => p.2)

/-! ### utils.ensure_relative_path -/

/-- `utils.ensure_relative_path`:
`if path and path.startswith("/"): return "." + path` else `return path`. -/
def ensure_relative_path (path : Option String) : Option String :=
  match path with
  | some p => if p ≠ "" && pyStartsWith p "/" then some ("." ++ p) else some p
  | none => none

/-! ### utils.parse_env -/

/-- Python `line.split("=", 1)` when it yields a key and a value: `none` when
the line contains no `=` (in the source this raises a caught `ValueError`). -/
def splitKeyValue (line : String) : Option (String × String) :=
  match pySplitChar '=' line with
  | [] => none
  | [_] => none
  | k :: rest => some (k, String.intercalate "=" rest)

/-- One iteration of the `parse_env` loop body on an accumulated dict. -/
def parseEnvStep (acc : List (String × String)) (line : String) : List (String × String) :=
  if line ≠ "" then
    match splitKeyValue line with
    | some (k, v) => dictInsert acc (pyUpper (pyStrip k)) (pyStrip v)
    | none => acc
  else
    acc

/-- The `parse_env` loop over the list of lines. -/
def parseEnvLines (lines : List String) : List (String × String) :=
  lines.foldl parseEnvStep []

/-- `utils.parse_env`: `None`/empty input yields `{}`; otherwise strip the
input, split on newlines and fold the loop body over the lines. -/
def parse_env (env : Option String) : List (String × String) :=
  match env with
  | none => []
  | some s => if s = "" then [] else parseEnvLines (pySplitChar '\n' (pyStrip s))

/-! ### utils.wait -/

/-- The sleep durations of `utils.wait` (in seconds, as rationals): the
`timeout` local starts at `0.5` and is updated to `min (timeout * 2) 30`
after every failed attempt. `waitDelay i` is the sleep after the `i`-th
failed attempt (`0`-based). -/
def waitDelay : Nat → ℚ
  | 0 => 1 / 2
  | n + 1 => min (waitDelay n * 2) 30

/-- The `while` loop of `utils.wait`, with the callback modelled as the
sequence `p` of its successive results (`p i` is the result of the `i`-th
invocation, `0`-based) and an explicit `fuel` bound on the number of loop
iterations (the Python loop has none and may diverge when
`max_retries < 0`).  Returns `none` when the fuel runs out, otherwise
`some (result, number of callback invocations, list of sleeps performed)`. -/
def waitLoop (p : Nat → Bool) (maxRetries : Int) (retries : Nat) (timeout : ℚ) :
    Nat → Option (Bool × Nat × List ℚ)
  | 0 => none
  | fuel + 1 =>
    if maxRetries < 0 || (retries : Int) ≤ maxRetries then
      if p retries then
        some (true, 1, [])
      else
        (waitLoop p maxRetries (retries + 1) (min (timeout * 2) 30) fuel).map
          (fun r => (r.1, r.2.1 + 1, timeout :: r.2.2))
    else
      some (false, 0, [])

/-- `utils.wait`: `retries` starts at `0` and `timeout` at `0.5`. -/
def wait (p : Nat → Bool) (maxRetries : Int) (fuel : Nat) : Option (Bool × Nat × List ℚ) :=
  waitLoop p maxRetries 0 (1 / 2) fuel

/-! ### utils.replace_secrets_yaml -/

/-- Matching the regex `\$\{\{\s*secrets\.(\w+)\s*\}\}` at the head of a
character list: literal `${{`, whitespace, literal `secrets.`, a non-empty
run of word characters (the captured name), whitespace, literal `}}`.
Returns the captured name and the characters after the match. -/
def matchPlaceholder (cs : List Char) : Option (String × List Char) :=
  if cs.take 3 = ['$', '{', '{'] then
    let afterWs := (cs.drop 3).dropWhile pyIsSpace
    if afterWs.take 8 = "secrets.".toList then
      let afterLit := afterWs.drop 8
      let name := afterLit.takeWhile pyIsWord
      if name.isEmpty then none
      else
        match (afterLit.drop name.length).dropWhile pyIsSpace with
        | '}' :: '}' :: rest2 => some (String.mk name, rest2)
        | _ => none
    else none
  else none

theorem length_dropWhile_le (p : Char → Bool) (l : List Char) :
    (l.dropWhile p).length ≤ l.length := by
  induction l with
  | nil => simp
  | cons a l ih =>
    rw [List.dropWhile_cons]
    split
    · exact Nat.le_trans ih (Nat.le_succ _)
    · simp

theorem matchPlaceholder_length {cs rest : List Char} {name : String}
    (h : matchPlaceholder cs = some (name, rest)) : rest.length < cs.length := by
  simp only [matchPlaceholder] at h
  split at h
  case isTrue h3 =>
    have hlen : 3 ≤ cs.length := by
      have := congrArg List.length h3
      simp only [List.length_take, List.length_cons, List.length_nil] at this
      omega
    split at h
    case isTrue =>
      split at h
      case isTrue => exact absurd h (by simp)
      case isFalse =>
        split at h
        case h_1 _ rest2 heq =>
          obtain ⟨-, rfl⟩ : _ ∧ rest2 = rest := by
            simpa [eq_comm] using h
          have h1 : rest2.length + 2 ≤ (((cs.drop 3).dropWhile pyIsSpace).drop 8).length := by
            calc rest2.length + 2
                = (('}' : Char) :: '}' :: rest2).length := by simp
              _ = (((((cs.drop 3).dropWhile pyIsSpace).drop 8).drop
                    ((((cs.drop 3).dropWhile pyIsSpace).drop 8).takeWhile
                      pyIsWord).length).dropWhile pyIsSpace).length := by rw [heq]
              _ ≤ ((((cs.drop 3).dropWhile pyIsSpace).drop 8).drop
                    ((((cs.drop 3).dropWhile pyIsSpace).drop 8).takeWhile
                      pyIsWord).length).length := length_dropWhile_le _ _
              _ ≤ (((cs.drop 3).dropWhile pyIsSpace).drop 8).length := by
                  simp only [List.length_drop]
                  omega
          have h2 : (((cs.drop 3).dropWhile pyIsSpace).drop 8).length ≤ cs.length - 3 := by
            calc (((cs.drop 3).dropWhile pyIsSpace).drop 8).length
                ≤ ((cs.drop 3).dropWhile pyIsSpace).length := by
                  simp only [List.length_drop]
                  omega
              _ ≤ (cs.drop 3).length := length_dropWhile_le _ _
              _ = cs.length - 3 := by simp
          omega
        case h_2 => exact absurd h (by simp)
    case isFalse => exact absurd h (by simp)
  case isFalse => exact absurd h (by simp)

/-- The scan performed by `re.sub` in `utils.replace_secrets_yaml`: at each
position try to match the placeholder pattern; on a match, look up the
upper-cased captured name in the secrets dict, raising a `ValueError`
(modelled by `Except.error` carrying the name) when absent, and continue
after the match (replaced text is not re-scanned); otherwise keep the
character and continue. -/
def substSecrets (secrets : List (String × String)) : List Char → Except String (List Char)
  | [] => Except.ok []
  | c :: cs =>
    match h : matchPlaceholder (c :: cs) with
    | some (name, rest) =>
      match dictGet secrets (pyUpper name) with
      | some v => (substSecrets secrets rest).map (fun r => v.toList ++ r)
      | none => Except.error (pyUpper name)
    | none => (substSecrets secrets cs).map (fun r => c :: r)
termination_by cs => cs.length
decreasing_by
  · exact matchPlaceholder_length h
  · simp

/-- Whether the placeholder pattern matches anywhere in the string. -/
def containsPlaceholder : List Char → Bool
  | [] => false
  | c :: cs => (matchPlaceholder (c :: cs)).isSome || containsPlaceholder cs

/-- The YAML data model: string / integer / boolean / null scalars,
sequences, and insertion-ordered mappings with string keys. -/
inductive Yaml where
  | str (s : String)
  | int (n : Int)
  | bool (b : Bool)
  | null
  | seq (items : List Yaml)
  | map (entries : List (String × Yaml))
  deriving Repr

mutual

/-- `utils.replace_secrets_yaml`: recursively walk mappings and sequences,
substitute the placeholder pattern in every string leaf, and return every
other scalar unchanged. In the source a dict comprehension rebuilds the
mapping substituting only the values (keys are left untouched). -/
def replace_secrets_yaml (data : Yaml) (secrets : List (String × String)) :
    Except String Yaml :=
  match data with
  | .map entries => (replaceSecretsEntries entries secrets).map Yaml.map
  | .seq items => (replaceSecretsItems items secrets).map Yaml.seq
  | .str s => (substSecrets secrets s.toList).map (fun r => Yaml.str (String.mk r))
  | .int n => Except.ok (.int n)
  | .bool b => Except.ok (.bool b)
  | .null => Except.ok .null

/-- The list comprehension over a YAML sequence. -/
def replaceSecretsItems (items : List Yaml) (secrets : List (String × String)) :
    Except String (List Yaml) :=
  match items with
  | [] => Except.ok []
  | x :: xs => do
    let y ← replace_secrets_yaml x secrets
    let ys ← replaceSecretsItems xs secrets
    Except.ok (y :: ys)

/-- The dict comprehension over a YAML mapping (values only). -/
def replaceSecretsEntries (entries : List (String × Yaml))
    (secrets : List (String × String)) : Except String (List (String × Yaml)) :=
  match entries with
  | [] => Except.ok []
  | (k, x) :: xs => do
    let y ← replace_secrets_yaml x secrets
    let ys ← replaceSecretsEntries xs secrets
    Except.ok ((k, y) :: ys)

end

/-! ### utils.get_domains_certificate -/

/-- A remote certificate as returned by the provider API (the fields the
code reads: id, the comma-separated domain string, the active flag). -/
structure Certificate where
  id : Nat
  domain : String
  active : Bool
  deriving DecidableEq, Repr

/-- `utils.get_domains_certificate`: return the first certificate whose
comma-split domain string, as a set, equals the given domain list as a set
(`set(cert_domains) == set(domains)`); `None` when there is none. -/
def get_domains_certificate (certificates : List Certificate) (domains : List String) :
    Option Certificate :=
  certificates.find?
    (fun cert => decide ((pySplitChar ',' cert.domain).toFinset = domains.toFinset))

/-! ### deploy.main: daemon convergence block -/

/-- A remote daemon as returned by the provider API. -/
structure RemoteDaemon where
  id : Nat
  command : String
  directory : String
  deriving DecidableEq, Repr

/-- A declared daemon from the site configuration (`daemon["command"]`). -/
structure DaemonSpec where
  command : String
  deriving DecidableEq, Repr

/-- A mutating daemon API call issued by the convergence block. -/
inductive DaemonCall where
  | deleteDaemon (id : Nat)
  | createDaemon (command user directory : String) (startsecs : Nat)
  deriving DecidableEq, Repr

/-- The daemon convergence block of `deploy.main`: filter the server's
daemons to those whose directory is this site's directory; delete every one
whose command is not declared, keeping the ids of the others; then create
every declared daemon whose command is not among the existing ones (user
`"forge"`, `startsecs` 1), appending each newly created id. `newId k` is
the id the provider assigns to the `k`-th created daemon. Returns the
issued calls (in order) and the accumulated `daemon_ids`. -/
def daemonConvergence (allDaemons : List RemoteDaemon) (confDaemons : List DaemonSpec)
    (site_dir : String) (newId : Nat → Nat) : List DaemonCall × List Nat :=
  let site_daemons := allDaemons.filter (fun dm => decide (dm.directory = site_dir))
  let step1 := site_daemons.foldl
    (fun (acc : List DaemonCall × List Nat) dm =>
      if (confDaemons.map (fun d => d.command)).contains dm.command then
        (acc.1, acc.2 ++ [dm.id])
      else
        (acc.1 ++ [DaemonCall.deleteDaemon dm.id], acc.2))
    ([], [])
  let step2 := confDaemons.foldl
    (fun (acc : List DaemonCall × List Nat × Nat) d =>
      if (site_daemons.map (fun dm => dm.command)).contains d.command then acc
      else
        (acc.1 ++ [DaemonCall.createDaemon d.command "forge" site_dir 1],
         acc.2.1 ++ [newId acc.2.2], acc.2.2 + 1))
    (step1.1, step1.2, 0)
  (step2.1, step2.2.1)

/-! ### deploy.main: environment variables block -/

/-- Python truthiness of an optional string (`None` and `""` are falsy). -/
def pyTruthy (s : Option String) : Bool :=
  match s with
  | none => false
  | some s => s ≠ ""

/-- Result of the environment block: the merged dict, the rendered env
string, and whether the env push call is issued. -/
structure EnvBlockResult where
  site_env : List (String × String)
  env_str : String
  pushed : Bool
  deriving DecidableEq, Repr

/-- The environment variables block of `deploy.main`: start from `{}`; if
`env_file` is truthy, update with the parsed file content; if `environment`
is truthy, update with the parsed inline block; render `KEY=value` lines
joined by `"\n"`; issue the env push call iff the rendered string is
non-empty. -/
def envBlock (env_file : Option String) (fileContent : String)
    (environment : Option String) : EnvBlockResult :=
  let site_env : List (String × String) := []
  let site_env :=
    if pyTruthy env_file then dictUpdate site_env (parse_env (some fileContent))
    else site_env
  let site_env :=
    if pyTruthy environment then dictUpdate site_env (parse_env environment)
    else site_env
  let env_str := String.intercalate "\n" (site_env.map (fun p => p.1 ++ "=" ++ p.2))
  { site_env := site_env, env_str := env_str, pushed := decide (0 < env_str.length) }

/-! ### utils.load_config (site dictionary) and the repository attachment block -/

/-- Lookup in a YAML mapping (`site.get(k)`). -/
def yamlGet (d : List (String × Yaml)) (k : String) : Option Yaml :=
  (d.find? (fun p => p.1 = k)).map (fun p => p.2)

/-- `site.get(k, default)`. -/
def yamlGetD (d : List (String × Yaml)) (k : String) (dflt : Yaml) : Yaml :=
  (yamlGet d k).getD dflt

/-- Python truthiness of a YAML value. -/
def yamlTruthy : Yaml → Bool
  | .str s => s ≠ ""
  | .int n => n ≠ 0
  | .bool b => b
  | .null => false
  | .seq items => ¬items.isEmpty
  | .map entries => ¬entries.isEmpty

/-- `ensure_relative_path` lifted to the YAML values `load_config` feeds it
(a string, or null for an absent optional field). -/
def yamlEnsureRelativePath : Yaml → Yaml
  | .str s =>
    match ensure_relative_path (some s) with
    | some r => .str r
    | none => .null
  | y => y

/-- The site dictionary built by `utils.load_config` for one declared site:
a dict literal with exactly these sixteen keys (note: no `github_branch`
key is ever produced). -/
def loadConfigSite (site : List (String × Yaml)) : List (String × Yaml) :=
  [("site_domain", yamlGetD site "site_domain" .null),
   ("root_dir", yamlEnsureRelativePath (yamlGetD site "root_dir" (.str "."))),
   ("web_dir", yamlEnsureRelativePath (yamlGetD site "web_dir" (.str "public"))),
   ("project_type", yamlGetD site "project_type" (.str "html")),
   ("php_version", yamlGetD site "php_version" .null),
   ("deployment_commands", yamlGetD site "deployment_commands" .null),
   ("daemons", yamlGetD site "daemons" (.seq [])),
   ("laravel_scheduler", yamlGetD site "laravel_scheduler" .null),
   ("environment", yamlGetD site "environment" .null),
   ("env_file", yamlEnsureRelativePath (yamlGetD site "env_file" .null)),
   ("aliases", yamlGetD site "aliases" (.seq [])),
   ("nginx_template", yamlGetD site "nginx_template" (.str "default")),
   ("nginx_template_variables", yamlGetD site "nginx_template_variables" (.map [])),
   ("nginx_custom_config", yamlEnsureRelativePath (yamlGetD site "nginx_custom_config" .null)),
   ("certificate", yamlGetD site "certificate" (.bool false)),
   ("clone_repository", yamlGetD site "clone_repository" (.bool true))]

/-- The JSON payload of the repository attachment request. -/
structure GitPayload where
  provider : String
  repository : String
  branch : String
  composer : Bool
  deriving DecidableEq, Repr

/-- The branch sent in the attachment request:
`site_conf.get("github_branch") or config["github_branch"]`
(a missing key yields `None`, and `None` and `""` are falsy). -/
def attachBranch (site_conf : List (String × Yaml)) (configBranch : String) : String :=
  match yamlGet site_conf "github_branch" with
  | some v => if yamlTruthy v then
      match v with
      | .str b => b
      | _ => configBranch
    else configBranch
  | none => configBranch

/-- The repository attachment block of `deploy.main`: the request is issued
only when `site_conf["clone_repository"]` is truthy and the remote site's
repository differs from the declared `github_repository`; it carries
provider `"github"`, the declared repository, the branch above, and
`composer = False`. Returns the list of issued attachment requests. -/
def repoAttachCalls (site_conf : List (String × Yaml)) (siteRepository : Option String)
    (githubRepository configBranch : String) : List GitPayload :=
  if yamlTruthy (yamlGetD site_conf "clone_repository" .null)
      && decide (siteRepository ≠ some githubRepository) then
    [{ provider := "github", repository := githubRepository,
       branch := attachBranch site_conf configBranch, composer := false }]
  else []

/-! ### deploy.main: deployment log and history block -/

/-- `requests.Response.raise_for_status` raises `HTTPError` exactly for
status codes in `[400, 600)`. -/
def raisesForStatus (status : Nat) : Bool :=
  400 ≤ status && status < 600

/-- The deployment-log fetch: `raise_for_status` inside a
`try/except HTTPError` whose handler re-raises unless the status is 404. -/
def deploymentLogCheck (logStatus : Nat) : Except String Unit :=
  if raisesForStatus logStatus then
    if logStatus ≠ 404 then Except.error "Failed to get deployment log"
    else Except.ok ()
  else Except.ok ()

/-- The deployment-history check: `deployments[0]` (an `IndexError` on an
empty history) and `if deployment["status"] == "failed": raise`. -/
def deploymentHistoryCheck (deployments : List String) : Except String Unit :=
  match deployments with
  | [] => Except.error "IndexError"
  | st :: _ => if st = "failed" then Except.error "Deployment failed" else Except.ok ()

/-- The post-deploy block: fetch the deployment log (tolerating a 404), then
inspect the most recent deployment-history entry. -/
def deploymentLogAndHistoryCheck (logStatus : Nat) (deployments : List String) :
    Except String Unit := do
  deploymentLogCheck logStatus
  deploymentHistoryCheck deployments

/-- The per-site `for` loop of `deploy.main`, given each site's outcome in
declaration order: the first exception aborts the whole run and no later
site is processed. Returns the number of sites processed on success. -/
def runSites : List (Except String Unit) → Except String Nat
  | [] => Except.ok 0
  | r :: rest =>
    match r with
    | Except.error e => Except.error e
    | Except.ok _ => (runSites rest).map (fun n => n + 1)

/-! ## Theorems -/

theorem startsWith_slash_ne_empty {s : String} (h : pyStartsWith s "/" = true) :
    s ≠ "" := by
  intro he
  subst he
  exact absurd h (by decide)

/-- C8: for every string input starting with the path separator `/`, the
output of `ensure_relative_path` equals `.` prepended to the input; for
every input not starting with `/`, the output equals the input unchanged. -/
theorem ensure_relative_path_spec :
    (∀ s : String, pyStartsWith s "/" = true →
      ensure_relative_path (some s) = some ("." ++ s)) ∧
    (∀ s : String, pyStartsWith s "/" = false →
      ensure_relative_path (some s) = some s) := by
  constructor
  · intro s h
    simp [ensure_relative_path, startsWith_slash_ne_empty h, h]
  · intro s h
    simp [ensure_relative_path, h]

theorem ensure_relative_path_spec_witness :
    ensure_relative_path (some "/var/www") = some ("." ++ "/var/www") ∧
    ensure_relative_path (some "public") = some "public" :=
  ⟨ensure_relative_path_spec.1 "/var/www" (by decide),
   ensure_relative_path_spec.2 "public" (by decide)⟩

/-- C1: for a site directory holding existing remote daemons A (id 11) and
B (id 22) — an out-of-directory daemon with A's command is present as well
and is untouched — and declared daemons B and C, the convergence block
issues exactly one delete call (A's id) and exactly one create call (C's
command, user `forge`, the site directory, `startsecs` 1); the accumulated
daemon-id list is exactly B's existing id followed by C's newly assigned
id, and never contains A's id. -/
theorem daemon_convergence_example :
    daemonConvergence
        [⟨11, "php artisan queue:work", "/home/forge/site.com/."⟩,
         ⟨22, "php artisan horizon", "/home/forge/site.com/."⟩,
         ⟨33, "php artisan queue:work", "/home/forge/other.com/."⟩]
        [⟨"php artisan horizon"⟩, ⟨"npm run worker"⟩]
        "/home/forge/site.com/." (fun k => 100 + k) =
      ([DaemonCall.deleteDaemon 11,
        DaemonCall.createDaemon "npm run worker" "forge" "/home/forge/site.com/." 1],
       [22, 100]) ∧
    (daemonConvergence
        [⟨11, "php artisan queue:work", "/home/forge/site.com/."⟩,
         ⟨22, "php artisan horizon", "/home/forge/site.com/."⟩,
         ⟨33, "php artisan queue:work", "/home/forge/other.com/."⟩]
        [⟨"php artisan horizon"⟩, ⟨"npm run worker"⟩]
        "/home/forge/site.com/." (fun k => 100 + k)).2.count 11 = 0 := by
  constructor
  · rfl
  · rfl

/-- C2: `get_domains_certificate` returns a certificate iff some listed
certificate's comma-split domain list equals the declared domains as a set;
any returned certificate is a listed one with that exact domain-set
equality; a certificate covering `{example.com, www.example.com}` matches
the declared set `{www.example.com, example.com}` in reversed order, but
does not match `{example.com}` alone. -/
theorem get_domains_certificate_set_equality :
    (∀ (certificates : List Certificate) (domains : List String) (cert : Certificate),
        get_domains_certificate certificates domains = some cert →
          cert ∈ certificates ∧
            (pySplitChar ',' cert.domain).toFinset = domains.toFinset) ∧
    (∀ (certificates : List Certificate) (domains : List String),
        (∃ cert ∈ certificates, (pySplitChar ',' cert.domain).toFinset = domains.toFinset) ↔
          ∃ cert, get_domains_certificate certificates domains = some cert) ∧
    get_domains_certificate [⟨7, "example.com,www.example.com", true⟩]
        ["www.example.com", "example.com"] =
      some ⟨7, "example.com,www.example.com", true⟩ ∧
    get_domains_certificate [⟨7, "example.com,www.example.com", true⟩]
        ["example.com"] = none := by
  refine ⟨?_, ?_, by decide, by decide⟩
  · intro certificates domains cert h
    refine ⟨List.mem_of_find?_eq_some h, ?_⟩
    have := List.find?_some h
    simpa using this
  · intro certificates domains
    constructor
    · rintro ⟨cert, hmem, hset⟩
      have : (certificates.find? (fun cert =>
          decide ((pySplitChar ',' cert.domain).toFinset = domains.toFinset))).isSome := by
        rw [List.find?_isSome]
        exact ⟨cert, hmem, by simpa using hset⟩
      exact Option.isSome_iff_exists.mp this
    · rintro ⟨cert, h⟩
      have h1 := List.mem_of_find?_eq_some h
      have h2 := List.find?_some h
      exact ⟨cert, h1, by simpa using h2⟩

theorem get_domains_certificate_set_equality_witness :
    (⟨7, "a.com,b.com", true⟩ : Certificate) ∈
        [(⟨7, "a.com,b.com", true⟩ : Certificate)] ∧
      ((pySplitChar ',' "a.com,b.com").toFinset =
        (["b.com", "a.com"] : List String).toFinset) :=
  get_domains_certificate_set_equality.1 [⟨7, "a.com,b.com", true⟩] ["b.com", "a.com"]
    ⟨7, "a.com,b.com", true⟩ (by decide)

/-- C10: `get_domains_certificate` is deterministic first-match: when a
matching certificate is preceded only by non-matching ones, it is the one
returned (so with several matches the first in list order wins), and the
empty certificate list yields `None`. -/
theorem get_domains_certificate_first_match :
    (∀ (pre post : List Certificate) (c : Certificate) (domains : List String),
        (pySplitChar ',' c.domain).toFinset = domains.toFinset →
        (∀ c' ∈ pre, (pySplitChar ',' c'.domain).toFinset ≠ domains.toFinset) →
        get_domains_certificate (pre ++ c :: post) domains = some c) ∧
    (∀ domains : List String, get_domains_certificate [] domains = none) := by
  constructor
  · intro pre post c domains hc hpre
    induction pre with
    | nil => simp [get_domains_certificate, List.find?_cons, hc]
    | cons p pre ih =>
      have hp : (pySplitChar ',' p.domain).toFinset ≠ domains.toFinset :=
        hpre p (by simp)
      have ih' := ih (fun c' hm => hpre c' (by simp [hm]))
      simpa [get_domains_certificate, List.find?_cons, hp] using ih'
  · intro domains
    rfl

theorem get_domains_certificate_first_match_witness :
    get_domains_certificate
        [⟨1, "other.com", false⟩, ⟨2, "a.com", true⟩, ⟨3, "a.com", false⟩]
        ["a.com"] = some ⟨2, "a.com", true⟩ :=
  get_domains_certificate_first_match.1 [⟨1, "other.com", false⟩] [⟨3, "a.com", false⟩]
    ⟨2, "a.com", true⟩ ["a.com"] (by decide) (by decide)

/-- The successive values taken by the `timeout` local of `utils.wait`
starting from `t`, over `n` failed attempts. -/
def timeoutSeq (t : ℚ) : Nat → List ℚ
  | 0 => []
  | n + 1 => t :: timeoutSeq (min (t * 2) 30) n

theorem timeoutSeq_waitDelay (n j : Nat) :
    timeoutSeq (waitDelay j) n = (List.range n).map (fun i => waitDelay (j + i)) := by
  induction n generalizing j with
  | zero => simp [timeoutSeq]
  | succ n ih =>
    have hstep : min (waitDelay j * 2) 30 = waitDelay (j + 1) := rfl
    rw [timeoutSeq, hstep, ih (j + 1), List.range_succ_eq_map]
    simp only [List.map_cons, List.map_map, Nat.add_zero]
    have hfun : (fun i => waitDelay (j + 1 + i)) =
        ((fun i => waitDelay (j + i)) ∘ Nat.succ) := by
      funext i
      simp only [Function.comp_apply]
      congr 1
      omega
    rw [hfun]

theorem waitLoop_success (p : Nat → Bool) (k : Int) :
    ∀ (n r : Nat) (t : ℚ) (fuel : Nat),
      p (r + n) = true → (∀ i, i < n → p (r + i) = false) →
      (∀ i, i ≤ n → k < 0 ∨ ((r + i : Nat) : Int) ≤ k) → n < fuel →
      waitLoop p k r t fuel = some (true, n + 1, timeoutSeq t n) := by
  intro n
  induction n with
  | zero =>
    intro r t fuel hp _ hk hf
    match fuel, hf with
    | fuel + 1, _ =>
      have hguard : (decide (k < 0) || decide ((r : Int) ≤ k)) = true := by
        rcases hk 0 (le_refl 0) with h | h
        · simp [h]
        · simp only [Nat.add_zero] at h
          simp [h]
      simp only [waitLoop, hguard, if_true]
      rw [if_pos (by simpa using hp)]
      simp [timeoutSeq]
  | succ n ih =>
    intro r t fuel hp hfail hk hf
    match fuel, hf with
    | fuel + 1, hf =>
      have hguard : (decide (k < 0) || decide ((r : Int) ≤ k)) = true := by
        rcases hk 0 (Nat.zero_le _) with h | h
        · simp [h]
        · simp only [Nat.add_zero] at h
          simp [h]
      have hpr : p r = false := by simpa using hfail 0 (Nat.succ_pos n)
      have hrec := ih (r + 1) (min (t * 2) 30) fuel
        (by rw [show r + 1 + n = r + (n + 1) by omega]; exact hp)
        (fun i hi => by rw [show r + 1 + i = r + (i + 1) by omega]
                        exact hfail (i + 1) (by omega))
        (fun i hi => by rw [show r + 1 + i = r + (i + 1) by omega]
                        exact hk (i + 1) (by omega))
        (by omega)
      simp only [waitLoop, hguard, if_true, hpr, Bool.false_eq_true, if_false, hrec,
        Option.map_some]
      rfl

theorem waitLoop_stop (p : Nat → Bool) (k r : Nat) (t : ℚ) (fuel : Nat)
    (hr : k < r) (hf : 0 < fuel) : waitLoop p (k : Int) r t fuel = some (false, 0, []) := by
  match fuel, hf with
  | fuel + 1, _ =>
    have hguard : (decide ((k : Int) < 0) || decide ((r : Int) ≤ (k : Int))) = false := by
      simp only [Bool.or_eq_false_iff, decide_eq_false_iff_not, not_lt]
      exact ⟨by positivity, by exact_mod_cast Nat.not_le.mpr hr⟩
    simp only [waitLoop]
    rw [hguard]
    simp

theorem waitLoop_failure (p : Nat → Bool) (k : Nat) (hnever : ∀ i, p i = false) :
    ∀ (fuel r : Nat) (t : ℚ), r ≤ k → k + 1 - r < fuel →
      waitLoop p (k : Int) r t fuel = some (false, k + 1 - r, timeoutSeq t (k + 1 - r)) := by
  intro fuel
  induction fuel with
  | zero => intro r t _ hf; omega
  | succ fuel ih =>
    intro r t hr hf
    have hguard : (decide ((k : Int) < 0) || decide ((r : Int) ≤ (k : Int))) = true := by
      have : (r : Int) ≤ (k : Int) := by exact_mod_cast hr
      simp [this]
    have hpr : p r = false := hnever r
    by_cases hcase : r + 1 ≤ k
    · have hrec := ih (r + 1) (min (t * 2) 30) hcase (by omega)
      simp only [waitLoop, hguard, if_true, hpr, Bool.false_eq_true, if_false, hrec]
      have h1 : k + 1 - r = (k + 1 - (r + 1)) + 1 := by omega
      rw [h1, timeoutSeq]
      rfl
    · have hrec := waitLoop_stop p k (r + 1) (min (t * 2) 30) fuel (by omega) (by omega)
      simp only [waitLoop, hguard, if_true, hpr, Bool.false_eq_true, if_false, hrec]
      have h1 : k + 1 - r = 1 := by omega
      rw [h1, timeoutSeq]
      rfl

theorem waitLoop_neg_true (p : Nat → Bool) (m : Int) (hm : m < 0) :
    ∀ (fuel r : Nat) (t : ℚ) (b : Bool) (c : Nat) (ds : List ℚ),
      waitLoop p m r t fuel = some (b, c, ds) → b = true := by
  intro fuel
  induction fuel with
  | zero => intro r t b c ds h; simp [waitLoop] at h
  | succ fuel ih =>
    intro r t b c ds h
    have hguard : (decide (m < 0) || decide ((r : Int) ≤ m)) = true := by simp [hm]
    simp only [waitLoop, hguard, if_true] at h
    by_cases hpr : p r = true
    · rw [if_pos hpr] at h
      injection h with h'
      exact (congrArg (fun x => x.1) h').symm
    · rw [if_neg hpr] at h
      rcases Option.map_eq_some'.mp h with ⟨⟨b', c', ds'⟩, hrec, heq⟩
      have := ih (r + 1) (min (t * 2) 30) b' c' ds' hrec
      cases heq
      exact this

theorem waitDelay_closed_form (i : Nat) :
    waitDelay i = min ((1 / 2 : ℚ) * 2 ^ i) 30 := by
  induction i with
  | zero =>
    rw [waitDelay]
    norm_num
  | succ i ih =>
    rw [waitDelay, ih, min_mul_of_nonneg _ _ (by norm_num : (0 : ℚ) ≤ 2), min_assoc]
    norm_num [pow_succ]
    ring_nf

/-- C3: if the callback first returns true on its `N`-th invocation with
`N ≤ k + 1`, `wait(p, k)` invokes it exactly `N` times and returns true
(stated with `n = N - 1`); if it never returns true, `wait(p, k)` invokes
it exactly `k + 1` times and returns false; the sleeps performed are
`waitDelay 0, waitDelay 1, …` in order, where
`waitDelay i = min (0.5 * 2 ^ i) 30` (initial half-second delay doubling
up to the 30-second cap); and a negative `max_retries` retries without
limit, returning true as soon as the callback succeeds and never
returning false. -/
theorem wait_spec :
    (∀ (p : Nat → Bool) (k n fuel : Nat), p n = true → (∀ i, i < n → p i = false) →
        n ≤ k → n < fuel →
        wait p (k : Int) fuel = some (true, n + 1, (List.range n).map waitDelay)) ∧
    (∀ (p : Nat → Bool) (k fuel : Nat), (∀ i, p i = false) → k + 1 < fuel →
        wait p (k : Int) fuel = some (false, k + 1, (List.range (k + 1)).map waitDelay)) ∧
    (∀ i, waitDelay i = min ((1 / 2 : ℚ) * 2 ^ i) 30) ∧
    (∀ (p : Nat → Bool) (m : Int) (n fuel : Nat), m < 0 → p n = true →
        (∀ i, i < n → p i = false) → n < fuel →
        wait p m fuel = some (true, n + 1, (List.range n).map waitDelay)) ∧
    (∀ (p : Nat → Bool) (m : Int) (fuel : Nat) (b : Bool) (c : Nat) (ds : List ℚ),
        m < 0 → wait p m fuel = some (b, c, ds) → b = true) := by
  have hseq : ∀ n, timeoutSeq (1 / 2 : ℚ) n = (List.range n).map waitDelay := by
    intro n
    have := timeoutSeq_waitDelay n 0
    simpa [waitDelay] using this
  refine ⟨?_, ?_, waitDelay_closed_form, ?_, ?_⟩
  · intro p k n fuel hp hfail hk hf
    rw [wait, waitLoop_success p k n 0 (1 / 2) fuel (by simpa using hp)
      (fun i hi => by simpa using hfail i hi)
      (fun i hi => Or.inr (by simpa using (by exact_mod_cast Nat.le_trans hi hk :
        ((i : Int) ≤ (k : Int))))) hf, hseq]
  · intro p k fuel hnever hf
    have := waitLoop_failure p k hnever fuel 0 (1 / 2) (Nat.zero_le _) (by omega)
    rw [wait, this, hseq]
    simp
  · intro p m n fuel hm hp hfail hf
    rw [wait, waitLoop_success p m n 0 (1 / 2) fuel (by simpa using hp)
      (fun i hi => by simpa using hfail i hi) (fun i _ => Or.inl hm) hf, hseq]
  · intro p m fuel b c ds hm h
    exact waitLoop_neg_true p m hm fuel 0 (1 / 2) b c ds h

theorem wait_spec_witness :
    wait (fun i => decide (i = 2)) ((5 : Nat) : Int) 10 =
      some (true, 3, [(1 : ℚ) / 2, 1]) ∧
    wait (fun _ => false) ((3 : Nat) : Int) 10 =
      some (false, 4, [(1 : ℚ) / 2, 1, 2, 4]) ∧
    wait (fun i => decide (i = 4)) (-1) 10 =
      some (true, 5, [(1 : ℚ) / 2, 1, 2, 4]) := by
  refine ⟨?_, ?_, ?_⟩
  · have h := wait_spec.1 (fun i => decide (i = 2)) 5 2 10 (by decide)
      (by decide) (by decide) (by decide)
    rw [h]
    norm_num [List.range_succ, waitDelay]
  · have h := wait_spec.2.1 (fun _ => false) 3 10 (fun _ => rfl) (by decide)
    rw [h]
    norm_num [List.range_succ, waitDelay]
  · have h := wait_spec.2.2.2.1 (fun i => decide (i = 4)) (-1) 4 10 (by decide)
      (by decide) (by decide) (by decide)
    rw [h]
    norm_num [List.range_succ, waitDelay]

/-- C9: `parse_env` is total on every input: a line without `=` and every
empty line is skipped while the remaining lines are still parsed; a parsed
line contributes its key stripped of whitespace and uppercased and its
value stripped of whitespace; `None` and empty input yield the empty
mapping. -/
theorem parse_env_lenient :
    (parse_env none = [] ∧ parse_env (some "") = []) ∧
    (∀ (pre post : List String) (line : String),
        splitKeyValue line = none ∨ line = "" →
        parseEnvLines (pre ++ line :: post) = parseEnvLines (pre ++ post)) ∧
    (∀ (pre : List String) (line k v : String), splitKeyValue line = some (k, v) →
        line ≠ "" →
        parseEnvLines (pre ++ [line]) =
          dictInsert (parseEnvLines pre) (pyUpper (pyStrip k)) (pyStrip v)) := by
  refine ⟨⟨rfl, rfl⟩, ?_, ?_⟩
  · intro pre post line hline
    have hstep : ∀ acc, parseEnvStep acc line = acc := by
      intro acc
      rcases hline with h | h
      · by_cases he : line = ""
        · simp [parseEnvStep, he]
        · simp [parseEnvStep, he, h]
      · simp [parseEnvStep, h]
    simp only [parseEnvLines, List.foldl_append, List.foldl_cons]
    rw [hstep]
  · intro pre line k v hkv hne
    simp only [parseEnvLines, List.foldl_append, List.foldl_cons, List.foldl_nil]
    simp [parseEnvStep, hne, hkv]

theorem parse_env_lenient_witness :
    parseEnvLines ["A=1", "no separator here", " b = 2 "] = [("A", "1"), ("B", "2")] :=
  (parse_env_lenient.2.1 ["A=1"] [" b = 2 "] "no separator here"
    (Or.inl (by decide))).trans (by decide)

/-! ### Dict lemmas for the environment merge -/

theorem dictGet_cons (q : String × String) (d : List (String × String)) (k : String) :
    dictGet (q :: d) k = if q.1 = k then some q.2 else dictGet d k := by
  by_cases h : q.1 = k
  · simp [dictGet, List.find?_cons, h]
  · simp [dictGet, List.find?_cons, h]

theorem dictGet_map_overwrite (d : List (String × String)) (k v k' : String)
    (hne : k' ≠ k) :
    dictGet (d.map (fun p => if p.1 = k then (k, v) else p)) k' = dictGet d k' := by
  induction d with
  | nil => rfl
  | cons q d ih =>
    simp only [List.map_cons]
    by_cases hq : q.1 = k
    · rw [if_pos hq, dictGet_cons, dictGet_cons]
      rw [if_neg (show ¬(((k, v) : String × String).1 = k') from fun h => hne h.symm),
        if_neg (show ¬(q.1 = k') from fun h => hne (h.symm.trans hq))]
      exact ih
    · rw [if_neg hq, dictGet_cons, dictGet_cons]
      by_cases hq' : q.1 = k'
      · rw [if_pos hq', if_pos hq']
      · rw [if_neg hq', if_neg hq']
        exact ih

theorem dictGet_dictInsert (d : List (String × String)) (k v k' : String) :
    dictGet (dictInsert d k v) k' = if k' = k then some v else dictGet d k' := by
  induction d with
  | nil =>
    rw [show dictInsert [] k v = [(k, v)] from rfl, dictGet_cons]
    by_cases h : k' = k
    · rw [if_pos (show (((k, v) : String × String).1 = k') from h.symm), if_pos h]
    · rw [if_neg (show ¬(((k, v) : String × String).1 = k') from fun hh => h hh.symm),
        if_neg h]
  | cons q d ih =>
    by_cases hq : q.1 = k
    · have hany : ((q :: d).any (fun p => decide (p.1 = k))) = true := by
        simp [List.any_cons, hq]
      rw [dictInsert, if_pos hany]
      simp only [List.map_cons, if_pos hq]
      rw [dictGet_cons]
      by_cases hk : k' = k
      · subst hk
        simp
      · rw [if_neg (show ¬(((k, v) : String × String).1 = k') from fun h => hk h.symm),
          dictGet_map_overwrite d k v k' hk, if_neg hk, dictGet_cons,
          if_neg (show ¬(q.1 = k') from fun h => hk (h.symm.trans hq))]
    · by_cases hd : (d.any (fun p => decide (p.1 = k))) = true
      · have hany : ((q :: d).any (fun p => decide (p.1 = k))) = true := by
          simp [List.any_cons, hd]
        rw [dictInsert, if_pos hany]
        simp only [List.map_cons, if_neg hq]
        rw [dictGet_cons]
        have hins : dictInsert d k v = d.map (fun p => if p.1 = k then (k, v) else p) := by
          rw [dictInsert, if_pos hd]
        by_cases hq' : q.1 = k'
        · have hkk : ¬(k' = k) := fun h => hq (hq'.trans h)
          rw [if_pos hq', if_neg hkk, dictGet_cons, if_pos hq']
        · rw [if_neg hq', ← hins, ih, dictGet_cons, if_neg hq']
      · have hany : ¬(((q :: d).any (fun p => decide (p.1 = k))) = true) := by
          simp only [List.any_cons, Bool.or_eq_true, decide_eq_true_eq]
          rintro (h | h)
          · exact hq h
          · exact hd h
        rw [dictInsert, if_neg hany, List.cons_append, dictGet_cons]
        have hins : dictInsert d k v = d ++ [(k, v)] := by
          rw [dictInsert, if_neg hd]
        by_cases hq' : q.1 = k'
        · have hkk : ¬(k' = k) := fun h => hq (hq'.trans h)
          rw [if_pos hq', if_neg hkk, dictGet_cons, if_pos hq']
        · rw [if_neg hq', ← hins, ih, dictGet_cons, if_neg hq']

theorem dictLastGet_cons (q : String × String) (l : List (String × String)) (k : String) :
    dictLastGet (q :: l) k =
      (dictLastGet l k).or (if q.1 = k then some q.2 else none) := by
  unfold dictLastGet
  rw [List.reverse_cons, List.find?_append]
  cases hfind : List.find? (fun p => decide (p.1 = k)) l.reverse with
  | none =>
    by_cases h : q.1 = k
    · simp [List.find?_cons, h, Option.or]
    · simp [List.find?_cons, h, Option.or]
  | some p =>
    simp [Option.or]

theorem dictGet_dictUpdate (l d : List (String × String)) (k : String) :
    dictGet (dictUpdate d l) k = (dictLastGet l k).or (dictGet d k) := by
  induction l generalizing d with
  | nil => simp [dictUpdate, dictLastGet, Option.or]
  | cons p l ih =>
    have hl : dictUpdate d (p :: l) = dictUpdate (dictInsert d p.1 p.2) l := rfl
    rw [hl, ih, dictGet_dictInsert, dictLastGet_cons]
    cases dictLastGet l k with
    | some v => simp [Option.or]
    | none =>
      simp only [Option.or]
      by_cases h : p.1 = k
      · rw [if_pos h, if_pos h.symm]
      · rw [if_neg h, if_neg (fun hh => h hh.symm)]

theorem mem_dictInsert {kv : String × String} {d : List (String × String)}
    {k v : String} (h : kv ∈ dictInsert d k v) : kv ∈ d ∨ kv = (k, v) := by
  unfold dictInsert at h
  split at h
  · rcases List.mem_map.mp h with ⟨p, hp, heq⟩
    by_cases hpk : p.1 = k
    · rw [if_pos hpk] at heq
      exact Or.inr heq.symm
    · rw [if_neg hpk] at heq
      exact Or.inl (heq ▸ hp)
  · rcases List.mem_append.mp h with h1 | h1
    · exact Or.inl h1
    · exact Or.inr (List.mem_singleton.mp h1)

theorem parseEnvLines_key_shape :
    ∀ (lines : List String) (acc : List (String × String)),
      (∀ kv ∈ acc, ∃ raw, kv.1 = pyUpper (pyStrip raw)) →
      ∀ kv ∈ lines.foldl parseEnvStep acc, ∃ raw, kv.1 = pyUpper (pyStrip raw) := by
  intro lines
  induction lines with
  | nil => intro acc hacc kv hkv; exact hacc kv hkv
  | cons line lines ih =>
    intro acc hacc kv hkv
    rw [List.foldl_cons] at hkv
    refine ih (parseEnvStep acc line) ?_ kv hkv
    intro kv' hkv'
    unfold parseEnvStep at hkv'
    split at hkv'
    · split at hkv'
      case h_1 k v heq =>
        rcases mem_dictInsert hkv' with h | h
        · exact hacc kv' h
        · exact ⟨k, by rw [h]⟩
      case h_2 => exact hacc kv' hkv'
    · exact hacc kv' hkv'

theorem parse_env_key_shape (env : Option String) :
    ∀ kv ∈ parse_env env, ∃ raw, kv.1 = pyUpper (pyStrip raw) := by
  intro kv hkv
  unfold parse_env at hkv
  match env with
  | none => exact absurd hkv (by simp)
  | some s =>
    simp only at hkv
    split at hkv
    · exact absurd hkv (by simp)
    · exact parseEnvLines_key_shape _ [] (by simp) kv hkv

theorem envBlock_pushed_eq (ef : Option String) (fc : String) (env : Option String) :
    (envBlock ef fc env).pushed =
      decide (0 < (envBlock ef fc env).env_str.length) := rfl

theorem string_length_pos_iff (s : String) : (0 < s.length) ↔ s ≠ "" := by
  cases s with
  | mk data =>
    constructor
    · intro h he
      rw [show ("" : String) = ⟨[]⟩ from rfl] at he
      injection he with hd
      subst hd
      simp [String.length] at h
    · intro h
      rcases Nat.eq_zero_or_pos (String.length ⟨data⟩) with h0 | h0
      · exfalso
        apply h
        have : data.length = 0 := h0
        rw [List.length_eq_zero] at this
        rw [this]
      · exact h0

/-- C5: merging file-sourced env `{A: 1, B: 2}` with inline env
`{B: 3, C: 4}` yields `{A: 1, B: 3, C: 4}` rendered as `"A=1\nB=3\nC=4"`
(one `KEY=value` line per entry, newline-joined, no trailing newline);
inline values win on every key collision (the last inline binding of a key
is the merged value); every parsed key is an uppercased stripped raw key;
and the env push call is issued iff the rendered string is non-empty. -/
theorem env_merge_spec :
    (envBlock (some ".env") "A=1\nB=2" (some "B=3\nC=4")).site_env =
        [("A", "1"), ("B", "3"), ("C", "4")] ∧
    (envBlock (some ".env") "A=1\nB=2" (some "B=3\nC=4")).env_str = "A=1\nB=3\nC=4" ∧
    (∀ (ef : Option String) (fc : String) (inl : Option String) (k v : String),
        pyTruthy inl = true → dictLastGet (parse_env inl) k = some v →
        dictGet (envBlock ef fc inl).site_env k = some v) ∧
    (∀ (env : Option String), ∀ kv ∈ parse_env env,
        ∃ raw, kv.1 = pyUpper (pyStrip raw)) ∧
    (∀ (ef : Option String) (fc : String) (inl : Option String),
        (envBlock ef fc inl).pushed = true ↔ (envBlock ef fc inl).env_str ≠ "") := by
  refine ⟨by decide, by decide, ?_, parse_env_key_shape, ?_⟩
  · intro ef fc inl k v htruthy hlast
    have hsite : (envBlock ef fc inl).site_env =
        dictUpdate (if pyTruthy ef then
            dictUpdate [] (parse_env (some fc)) else []) (parse_env inl) := by
      simp only [envBlock]
      rw [if_pos htruthy]
    rw [hsite, dictGet_dictUpdate, hlast]
    rfl
  · intro ef fc inl
    rw [envBlock_pushed_eq, decide_eq_true_eq]
    exact string_length_pos_iff _

theorem env_merge_spec_witness :
    dictGet (envBlock (some ".env") "A=1\nB=2" (some "B=3\nC=4")).site_env "B" =
      some "3" :=
  env_merge_spec.2.2.1 (some ".env") "A=1\nB=2" (some "B=3\nC=4") "B" "3"
    (by decide) (by decide)

/-! ### Secrets substitution: placeholder predicates and lemmas -/

mutual

/-- No occurrence of the placeholder pattern anywhere in the YAML value. -/
def yamlNoPlaceholder : Yaml → Bool
  | .str s => !(containsPlaceholder s.toList)
  | .seq items => yamlItemsNoPlaceholder items
  | .map entries => yamlEntriesNoPlaceholder entries
  | .int _ => true
  | .bool _ => true
  | .null => true

def yamlItemsNoPlaceholder : List Yaml → Bool
  | [] => true
  | x :: xs => yamlNoPlaceholder x && yamlItemsNoPlaceholder xs

def yamlEntriesNoPlaceholder : List (String × Yaml) → Bool
  | [] => true
  | (_, x) :: xs => yamlNoPlaceholder x && yamlEntriesNoPlaceholder xs

end

theorem string_mk_toList (s : String) : String.mk s.toList = s := by
  cases s
  rfl

theorem substSecrets_nil (secrets : List (String × String)) :
    substSecrets secrets [] = Except.ok [] := by
  rw [substSecrets]

theorem substSecrets_cons_match (secrets : List (String × String)) (c : Char)
    (cs : List Char) (name : String) (rest : List Char)
    (hm : matchPlaceholder (c :: cs) = some (name, rest)) :
    substSecrets secrets (c :: cs) =
      match dictGet secrets (pyUpper name) with
      | some v => (substSecrets secrets rest).map (fun r => v.toList ++ r)
      | none => Except.error (pyUpper name) := by
  rw [substSecrets]
  split
  case h_1 name2 rest2 heq2 =>
    rw [hm] at heq2
    injection heq2 with hh
    injection hh with h1 h2
    subst h1
    subst h2
    rfl
  case h_2 heq2 =>
    rw [hm] at heq2
    exact absurd heq2 (by simp)

theorem substSecrets_cons_nomatch (secrets : List (String × String)) (c : Char)
    (cs : List Char) (hm : matchPlaceholder (c :: cs) = none) :
    substSecrets secrets (c :: cs) = (substSecrets secrets cs).map (fun r => c :: r) := by
  rw [substSecrets]
  split
  case h_1 name2 rest2 heq2 =>
    rw [hm] at heq2
    exact absurd heq2 (by simp)
  case h_2 heq2 => rfl

theorem substSecrets_no_placeholder (secrets : List (String × String)) :
    ∀ cs : List Char, containsPlaceholder cs = false →
      substSecrets secrets cs = Except.ok cs := by
  intro cs
  induction cs with
  | nil => intro _; exact substSecrets_nil secrets
  | cons c cs ih =>
    intro h
    rw [containsPlaceholder, Bool.or_eq_false_iff] at h
    have hm : matchPlaceholder (c :: cs) = none :=
      Option.not_isSome_iff_eq_none.mp (by simp [h.1])
    rw [substSecrets_cons_nomatch secrets c cs hm, ih h.2]
    rfl

mutual

theorem replace_secrets_yaml_noPh (d : Yaml) (secrets : List (String × String))
    (h : yamlNoPlaceholder d = true) : replace_secrets_yaml d secrets = Except.ok d := by
  match d with
  | .str s =>
    have hs : containsPlaceholder s.toList = false := by
      rw [yamlNoPlaceholder] at h
      simpa using h
    simp only [replace_secrets_yaml]
    rw [substSecrets_no_placeholder secrets s.toList hs]
    rfl
  | .seq items =>
    rw [yamlNoPlaceholder] at h
    simp only [replace_secrets_yaml]
    rw [replaceSecretsItems_noPh items secrets h]
    rfl
  | .map entries =>
    rw [yamlNoPlaceholder] at h
    simp only [replace_secrets_yaml]
    rw [replaceSecretsEntries_noPh entries secrets h]
    rfl
  | .int n => simp [replace_secrets_yaml]
  | .bool b => simp [replace_secrets_yaml]
  | .null => simp [replace_secrets_yaml]

theorem replaceSecretsItems_noPh (items : List Yaml) (secrets : List (String × String))
    (h : yamlItemsNoPlaceholder items = true) :
    replaceSecretsItems items secrets = Except.ok items := by
  match items with
  | [] => rw [replaceSecretsItems]
  | x :: xs =>
    rw [yamlItemsNoPlaceholder, Bool.and_eq_true] at h
    rw [replaceSecretsItems]
    rw [replace_secrets_yaml_noPh x secrets h.1]
    rw [replaceSecretsItems_noPh xs secrets h.2]
    rfl

theorem replaceSecretsEntries_noPh (entries : List (String × Yaml))
    (secrets : List (String × String))
    (h : yamlEntriesNoPlaceholder entries = true) :
    replaceSecretsEntries entries secrets = Except.ok entries := by
  match entries with
  | [] => rw [replaceSecretsEntries]
  | (k, x) :: xs =>
    rw [yamlEntriesNoPlaceholder, Bool.and_eq_true] at h
    rw [replaceSecretsEntries]
    rw [replace_secrets_yaml_noPh x secrets h.1]
    rw [replaceSecretsEntries_noPh xs secrets h.2]
    rfl

end

/-- A string occurs as a leaf of a YAML value, at any nesting depth. -/
inductive HasStrLeaf : Yaml → String → Prop where
  | str (s : String) : HasStrLeaf (.str s) s
  | seq {items : List Yaml} {x : Yaml} {s : String} :
      x ∈ items → HasStrLeaf x s → HasStrLeaf (.seq items) s
  | map {entries : List (String × Yaml)} {k : String} {x : Yaml} {s : String} :
      (k, x) ∈ entries → HasStrLeaf x s → HasStrLeaf (.map entries) s

theorem replaceSecretsItems_mem_fails (items : List Yaml)
    (secrets : List (String × String)) (x : Yaml) (hx : x ∈ items) (e : String)
    (he : replace_secrets_yaml x secrets = Except.error e) :
    ∃ e', replaceSecretsItems items secrets = Except.error e' := by
  induction items with
  | nil => cases hx
  | cons y ys ih =>
    cases hy : replace_secrets_yaml y secrets with
    | error e2 =>
      refine ⟨e2, ?_⟩
      rw [replaceSecretsItems, hy]
      rfl
    | ok z =>
      rcases List.mem_cons.mp hx with rfl | hx'
      · rw [hy] at he
        exact absurd he (by simp)
      · obtain ⟨e', he'⟩ := ih hx'
        refine ⟨e', ?_⟩
        rw [replaceSecretsItems, hy, he']
        rfl

theorem replaceSecretsEntries_mem_fails (entries : List (String × Yaml))
    (secrets : List (String × String)) (k : String) (x : Yaml)
    (hx : (k, x) ∈ entries) (e : String)
    (he : replace_secrets_yaml x secrets = Except.error e) :
    ∃ e', replaceSecretsEntries entries secrets = Except.error e' := by
  induction entries with
  | nil => cases hx
  | cons q ys ih =>
    obtain ⟨qk, qx⟩ := q
    cases hy : replace_secrets_yaml qx secrets with
    | error e2 =>
      refine ⟨e2, ?_⟩
      rw [replaceSecretsEntries, hy]
      rfl
    | ok z =>
      rcases List.mem_cons.mp hx with heq | hx'
      · injection heq with h1 h2
        subst h1
        subst h2
        rw [hy] at he
        exact absurd he (by simp)
      · obtain ⟨e', he'⟩ := ih hx'
        refine ⟨e', ?_⟩
        rw [replaceSecretsEntries, hy, he']
        rfl

theorem replace_secrets_yaml_leaf_fails (d : Yaml) (secrets : List (String × String))
    (s : String) (e : String) (hleaf : HasStrLeaf d s)
    (he : substSecrets secrets s.toList = Except.error e) :
    ∃ e', replace_secrets_yaml d secrets = Except.error e' := by
  induction hleaf with
  | str s =>
    refine ⟨e, ?_⟩
    simp only [replace_secrets_yaml]
    rw [he]
    rfl
  | seq hmem _ ih =>
    obtain ⟨e', he'⟩ := ih he
    obtain ⟨e'', he''⟩ := replaceSecretsItems_mem_fails _ secrets _ hmem e' he'
    refine ⟨e'', ?_⟩
    simp only [replace_secrets_yaml]
    rw [he'']
    rfl
  | map hmem _ ih =>
    obtain ⟨e', he'⟩ := ih he
    obtain ⟨e'', he''⟩ := replaceSecretsEntries_mem_fails _ secrets _ _ hmem e' he'
    refine ⟨e'', ?_⟩
    simp only [replace_secrets_yaml]
    rw [he'']
    rfl

/-- C4: `replace_secrets_yaml` returns every input with no placeholder
occurrence unchanged (hence it is idempotent on such inputs); an occurrence
of the placeholder pattern is replaced by the secrets value stored under
the uppercased captured name, and raises there when the uppercased name is
absent; a string leaf whose substitution raises makes the whole walk raise
at any nesting depth; and non-string scalars are returned unchanged. -/
theorem replace_secrets_yaml_spec :
    (∀ (d : Yaml) (secrets : List (String × String)), yamlNoPlaceholder d = true →
        replace_secrets_yaml d secrets = Except.ok d) ∧
    (∀ (secrets : List (String × String)) (cs rest : List Char) (name v : String),
        matchPlaceholder cs = some (name, rest) →
        dictGet secrets (pyUpper name) = some v →
        substSecrets secrets cs =
          (substSecrets secrets rest).map (fun r => v.toList ++ r)) ∧
    (∀ (secrets : List (String × String)) (cs rest : List Char) (name : String),
        matchPlaceholder cs = some (name, rest) →
        dictGet secrets (pyUpper name) = none →
        substSecrets secrets cs = Except.error (pyUpper name)) ∧
    (∀ (d : Yaml) (secrets : List (String × String)) (s e : String),
        HasStrLeaf d s → substSecrets secrets s.toList = Except.error e →
        ∃ e', replace_secrets_yaml d secrets = Except.error e') ∧
    (∀ (secrets : List (String × String)) (n : Int) (b : Bool),
        replace_secrets_yaml (.int n) secrets = Except.ok (.int n) ∧
        replace_secrets_yaml (.bool b) secrets = Except.ok (.bool b) ∧
        replace_secrets_yaml .null secrets = Except.ok .null) := by
  refine ⟨replace_secrets_yaml_noPh, ?_, ?_,
    fun d secrets s e hleaf he => replace_secrets_yaml_leaf_fails d secrets s e hleaf he,
    ?_⟩
  · intro secrets cs rest name v hm hget
    match cs with
    | [] => exact absurd hm (by simp [matchPlaceholder])
    | c :: cs' =>
      rw [substSecrets_cons_match secrets c cs' name rest hm, hget]
  · intro secrets cs rest name hm hget
    match cs with
    | [] => exact absurd hm (by simp [matchPlaceholder])
    | c :: cs' =>
      rw [substSecrets_cons_match secrets c cs' name rest hm, hget]
  · intro secrets n b
    refine ⟨?_, ?_, ?_⟩ <;> simp [replace_secrets_yaml]

theorem replace_secrets_yaml_spec_witness :
    replace_secrets_yaml
        (Yaml.map [("a", Yaml.seq [Yaml.str "plain", Yaml.int 3])]) [("TOKEN", "x")] =
      Except.ok (Yaml.map [("a", Yaml.seq [Yaml.str "plain", Yaml.int 3])]) ∧
    substSecrets [] "${{ secrets.token }}".toList = Except.error "TOKEN" ∧
    (∃ e, replace_secrets_yaml
        (Yaml.map [("a", Yaml.seq [Yaml.str "${{ secrets.token }}"])]) [] =
      Except.error e) := by
  have hup : pyUpper "token" = "TOKEN" := by decide
  have hmiss : substSecrets [] "${{ secrets.token }}".toList = Except.error "TOKEN" :=
    (replace_secrets_yaml_spec.2.2.1 [] "${{ secrets.token }}".toList [] "token"
      (by decide) rfl).trans (by rw [hup])
  refine ⟨replace_secrets_yaml_spec.1 _ _ (by decide), hmiss, ?_⟩
  exact replace_secrets_yaml_spec.2.2.2.1 _ [] "${{ secrets.token }}" "TOKEN"
    (HasStrLeaf.map (List.mem_singleton.mpr rfl)
      (HasStrLeaf.seq (List.mem_singleton.mpr rfl) (HasStrLeaf.str _))) hmiss

/-! ### C6: repository attachment -/

theorem loadConfigSite_no_github_branch (site : List (String × Yaml)) :
    yamlGet (loadConfigSite site) "github_branch" = none := rfl

theorem attachBranch_loadConfigSite (site : List (String × Yaml)) (b : String) :
    attachBranch (loadConfigSite site) b = b := by
  rw [attachBranch, loadConfigSite_no_github_branch]

/-- C6 counterexample: a YAML site block declaring `github_branch: dev`
still yields an attach request whose branch is the config-level default
`main`, not `dev` — `load_config` drops the site-level key, so the
site-level branch override of the claim never takes effect. -/
theorem repo_attach_branch_counterexample :
    (repoAttachCalls
        (loadConfigSite
          [("site_domain", Yaml.str "x.com"), ("github_branch", Yaml.str "dev")])
        (some "old/repo") "org/repo" "main").map (fun c => c.branch) = ["main"] ∧
    ("main" : String) ≠ "dev" := by
  constructor
  · rfl
  · decide

/-- C6 (amended): the attach request is issued iff `clone_repository` is
truthy and the remote repository differs from the declared one; it always
carries provider `"github"`, the declared repository, `composer = false`,
and the config-level default branch — the site dict built by `load_config`
never contains a `github_branch` key, so the site-level lookup always
misses. -/
theorem repo_attach_spec :
    (∀ (site : List (String × Yaml)) (siteRepo : Option String)
        (configRepo configBranch : String),
        ∀ call ∈ repoAttachCalls (loadConfigSite site) siteRepo configRepo configBranch,
          call.provider = "github" ∧ call.repository = configRepo ∧
          call.branch = configBranch ∧ call.composer = false) ∧
    (∀ (site_conf : List (String × Yaml)) (siteRepo : Option String)
        (configRepo configBranch : String),
        repoAttachCalls site_conf siteRepo configRepo configBranch ≠ [] ↔
          (yamlTruthy (yamlGetD site_conf "clone_repository" .null) = true ∧
            siteRepo ≠ some configRepo)) := by
  constructor
  · intro site siteRepo configRepo configBranch call hcall
    rw [repoAttachCalls] at hcall
    split at hcall
    · rw [List.mem_singleton] at hcall
      subst hcall
      exact ⟨rfl, rfl, attachBranch_loadConfigSite site configBranch, rfl⟩
    · cases hcall
  · intro site_conf siteRepo configRepo configBranch
    rw [repoAttachCalls]
    split
    case isTrue h =>
      rw [Bool.and_eq_true, decide_eq_true_eq] at h
      exact iff_of_true (by simp) h
    case isFalse h =>
      refine iff_of_false (by simp) ?_
      intro hc
      exact h (by rw [Bool.and_eq_true, decide_eq_true_eq]; exact hc)

theorem repo_attach_spec_witness :
    ({ provider := "github", repository := "r", branch := "main",
        composer := false } : GitPayload).provider = "github" ∧
    ({ provider := "github", repository := "r", branch := "main",
        composer := false } : GitPayload).repository = "r" ∧
    ({ provider := "github", repository := "r", branch := "main",
        composer := false } : GitPayload).branch = "main" ∧
    ({ provider := "github", repository := "r", branch := "main",
        composer := false } : GitPayload).composer = false :=
  repo_attach_spec.1 [("site_domain", Yaml.str "x.com")] (some "o") "r" "main"
    { provider := "github", repository := "r", branch := "main", composer := false }
    (by decide)

/-! ### C7: deployment log / history -/

/-- C7 counterexample: a 304 log response is not a 2xx status, yet the log
fetch does not raise (`raise_for_status` raises only for 4xx/5xx) and the
run continues to the history check. -/
theorem deployment_check_counterexample :
    (304 < 200 ∨ 300 ≤ 304) ∧
    deploymentLogAndHistoryCheck 304 ["finished"] = Except.ok () := by
  exact ⟨Or.inr (by decide), rfl⟩

/-- C7 (amended): a 404 log response is swallowed and the run proceeds to
the history check; any other 4xx/5xx log response raises; when the log
fetch does not raise, a most-recent history entry with status `"failed"`
raises `Deployment failed`; and an exception at any site aborts the run
with no continuation to the remaining sites. -/
theorem deployment_check_spec :
    (∀ ds : List String,
        deploymentLogAndHistoryCheck 404 ds = deploymentHistoryCheck ds) ∧
    (∀ (s : Nat) (ds : List String), raisesForStatus s = true → s ≠ 404 →
        deploymentLogAndHistoryCheck s ds =
          Except.error "Failed to get deployment log") ∧
    (∀ (s : Nat) (rest : List String), deploymentLogCheck s = Except.ok () →
        deploymentLogAndHistoryCheck s ("failed" :: rest) =
          Except.error "Deployment failed") ∧
    (∀ (pre post : List (Except String Unit)) (e : String),
        (∀ x ∈ pre, x = Except.ok ()) →
        runSites (pre ++ Except.error e :: post) = Except.error e) := by
  refine ⟨fun ds => rfl, ?_, ?_, ?_⟩
  · intro s ds h1 h2
    have hlog : deploymentLogCheck s = Except.error "Failed to get deployment log" := by
      rw [deploymentLogCheck, if_pos h1, if_pos h2]
    simp only [deploymentLogAndHistoryCheck]
    rw [hlog]
    rfl
  · intro s rest hlog
    simp only [deploymentLogAndHistoryCheck]
    rw [hlog]
    simp [deploymentHistoryCheck]
    rfl
  · intro pre post e hpre
    induction pre with
    | nil => rfl
    | cons x pre ih =>
      have hx : x = Except.ok () := hpre x (by simp)
      subst hx
      rw [List.cons_append, runSites]
      rw [ih (fun y hy => hpre y (by simp [hy]))]
      rfl

theorem deployment_check_spec_witness :
    deploymentLogAndHistoryCheck 500 ["finished"] =
      Except.error "Failed to get deployment log" ∧
    deploymentLogAndHistoryCheck 200 ["failed"] =
      Except.error "Deployment failed" ∧
    runSites [Except.ok (), Except.error "Deployment failed", Except.ok ()] =
      Except.error "Deployment failed" :=
  ⟨deployment_check_spec.2.1 500 ["finished"] (by decide) (by decide),
   deployment_check_spec.2.2.1 200 [] rfl,
   deployment_check_spec.2.2.2 [Except.ok ()] [Except.ok ()] "Deployment failed"
     (fun x hx => List.mem_singleton.mp hx)⟩

end ForgeDeploy
